import Mathlib

/-!
# Pipeline cache (`pkg/kube/pipeline_cache.go`)

A shallow embedding of `PipelineNamespaceCache`: the cache of the pipeline
activities of one namespace, seeded by a listing and kept up to date by the
informer's Added / Updated / Deleted callbacks.

* Go values of type `interface{}` are the type `Obj`.
* `sync.Map` is a finite list of key/value entries with at most one entry per
  key; the order of that list carries no meaning.  `Range` goes through the keys
  in an order of its own choosing, which is an explicit argument here.
* `close` on a channel that is already closed panics; `Stop` therefore returns
  in `Except Panic`.
-/

namespace Kube

/-! ## Data model -/

/-- Modelled from the spec: the type declaration `v1.PipelineActivity` is not part
of the source file.  The cache reads the `Name` of an activity and nothing else;
`Status` stands for the rest of the resource (the spec's scenario gives every
item an id and a status). -/
structure PipelineActivity where
  Name : String
  Status : String
deriving DecidableEq, Repr

/-- A Go value of type `interface{}` as far as the cache can tell values apart:
a `*v1.PipelineActivity` (the pointer may be nil, here `none`) or a value of any
other dynamic type, the nil interface included. -/
inductive Obj where
  | pipeline (p : Option PipelineActivity)
  | other (descr : String)
deriving DecidableEq, Repr

/-- The state of `sync.Map`: its entries.  `Store` and `Delete` keep at most one
entry per key. -/
abbrev SyncMap := List (String × Obj)

namespace SyncMap

/-- The method `m.Store(key, value)`: sets the value for a key, replacing the entry the key
had, if any. -/
def Store (m : SyncMap) (key : String) (value : Obj) : SyncMap :=
  (key, value) :: m.filter (fun e => decide (e.1 ≠ key))

/-- The method `m.Delete(key)`: deletes the value for a key; nothing happens when the key is
absent. -/
def Delete (m : SyncMap) (key : String) : SyncMap :=
  m.filter (fun e => decide (e.1 ≠ key))

/-- The method `m.Load(key)`: the value stored for a key, if any. -/
def Load (m : SyncMap) (key : String) : Option Obj :=
  (m.find? (fun e => decide (e.1 = key))).map Prod.snd

/-- The keys of the entries. -/
def keys (m : SyncMap) : List String :=
  m.map Prod.fst

/-- The orders in which `m.Range` may go through the keys of `m`: each key once,
in any order. -/
def RangeOrder (m : SyncMap) (order : List String) : Prop :=
  order.Perm m.keys

instance (m : SyncMap) (order : List String) : Decidable (RangeOrder m order) :=
  inferInstanceAs (Decidable (order.Perm m.keys))

/-- The method `m.Range(f)`: goes through the keys in the order `order`, calls `f` on each
key that has an entry and on its value, threading the state the closure `f`
captures, and stops as soon as `f` returns false. -/
def Range {σ : Type} (m : SyncMap) (order : List String) (f : σ → String → Obj → σ × Bool)
    (s : σ) : σ :=
  match order with
  | [] => s
  | key :: rest =>
    match m.Load key with
    | none => Range m rest f s
    | some value =>
      match f s key value with
      | (s', true) => Range m rest f s'
      | (s', false) => s'

end SyncMap

/-- The stop channel `chan struct{}`; nothing is ever sent on it, so its state is
whether it has been closed. -/
inductive Chan where
  | Open
  | Closed
deriving DecidableEq, Repr

/-- The run-time panics of the program. -/
inductive Panic where
  | closeOfClosedChannel
deriving DecidableEq, Repr

/-- The builtin `close(ch)`: closes an open channel and panics on a closed one. -/
def close (ch : Chan) : Except Panic Chan :=
  match ch with
  | .Open => .ok .Closed
  | .Closed => .error .closeOfClosedChannel

/-- The type `PipelineNamespaceCache` caches the pipelines for a single namespace. -/
structure PipelineNamespaceCache where
  pipelines : SyncMap
  stop : Chan
deriving DecidableEq, Repr

/-- The seeding loop of `NewPipelineCache`: every listed item is stored under its
name, in listing order. -/
def seed (c : PipelineNamespaceCache) (items : List PipelineActivity) :
    PipelineNamespaceCache :=
  items.foldl
    (fun c pipeline =>
      { c with pipelines := c.pipelines.Store pipeline.Name (.pipeline (some pipeline)) })
    c

/-- The two results of `PipelineActivities(ns).List(...)`: a pointer to the list
(`none` when nil), whose `Items` are the listed activities, and an error (`none`
when nil). -/
structure ListResult where
  pipelines : Option (List PipelineActivity)
  err : Option String
deriving DecidableEq, Repr

/-- The constructor `NewPipelineCache`: `listed` is what the `List` call returns.  The error is
discarded; when the list pointer is not nil its items seed the store.  The cache
starts with an open stop channel. -/
def NewPipelineCache (listed : ListResult) : PipelineNamespaceCache :=
  let namespaceCache : PipelineNamespaceCache := { pipelines := [], stop := .Open }
  match listed.pipelines with
  | some items => seed namespaceCache items
  | none => namespaceCache

namespace PipelineNamespaceCache

/-- The method `Stop` closes the stop channel. -/
def Stop (c : PipelineNamespaceCache) : Except Panic PipelineNamespaceCache :=
  match close c.stop with
  | .ok ch => .ok { c with stop := ch }
  | .error e => .error e

/-- The closure `onEntry` of `Pipelines`: appends the value to `answer` when it is
a non-nil `*v1.PipelineActivity`, and always asks `Range` to go on. -/
def onEntry (answer : List PipelineActivity) (_key : String) (value : Obj) :
    List PipelineActivity × Bool :=
  match value with
  | .pipeline (some pipeline) => (answer ++ [pipeline], true)
  | _ => (answer, true)

/-- The method `Pipelines`: the activities collected by `c.pipelines.Range(onEntry)`, where
`order` is the order in which `Range` goes through the keys of `c.pipelines`. -/
def Pipelines (c : PipelineNamespaceCache) (order : List String) : List PipelineActivity :=
  c.pipelines.Range order onEntry []

/-- The handler `onPipelineObj`: stores a non-nil pipeline activity under its name; any other
payload is logged (not a pipeline activity) or skipped (nil pointer). -/
def onPipelineObj (c : PipelineNamespaceCache) (obj : Obj) : PipelineNamespaceCache :=
  match obj with
  | .other _ => c
  | .pipeline none => c
  | .pipeline (some pipeline) =>
    { c with pipelines := c.pipelines.Store pipeline.Name (.pipeline (some pipeline)) }

/-- The handler `onPipelineDelete`: deletes the entry under the name of a non-nil pipeline
activity; any other payload is logged or skipped. -/
def onPipelineDelete (c : PipelineNamespaceCache) (obj : Obj) : PipelineNamespaceCache :=
  match obj with
  | .other _ => c
  | .pipeline none => c
  | .pipeline (some pipeline) => { c with pipelines := c.pipelines.Delete pipeline.Name }

end PipelineNamespaceCache

/-- A notification of the informer, with the arguments of the handler it calls. -/
inductive Event where
  | Added (obj : Obj)
  | Updated (oldObj newObj : Obj)
  | Deleted (obj : Obj)
deriving DecidableEq, Repr

/-- The `ResourceEventHandlerFuncs` registered by `NewPipelineCache`. -/
def handle (c : PipelineNamespaceCache) (e : Event) : PipelineNamespaceCache :=
  match e with
  | .Added obj => c.onPipelineObj obj
  | .Updated _ newObj => c.onPipelineObj newObj
  | .Deleted obj => c.onPipelineDelete obj

/-- Events are handled one at a time, in delivery order. -/
def deliver (c : PipelineNamespaceCache) (events : List Event) : PipelineNamespaceCache :=
  events.foldl handle c

/-- A call made on the cache: `Stop()` or a notification of the informer. -/
inductive Step where
  | Stop
  | Notify (e : Event)
deriving DecidableEq, Repr

/-- One step of the cache; a step fails when the call panics. -/
def step (c : PipelineNamespaceCache) (s : Step) : Except Panic PipelineNamespaceCache :=
  match s with
  | .Stop => c.Stop
  | .Notify e => .ok (handle c e)

/-- A sequence of steps, taken in order; the first panic ends the run. -/
def run (c : PipelineNamespaceCache) (steps : List Step) : Except Panic PipelineNamespaceCache :=
  match steps with
  | [] => .ok c
  | s :: rest =>
    match step c s with
    | .ok c' => run c' rest
    | .error e => .error e

/-- The payload the handler of an event looks at. -/
def Event.payload (e : Event) : Obj :=
  match e with
  | .Added obj => obj
  | .Updated _ newObj => newObj
  | .Deleted obj => obj

/-- An event is malformed when its payload is not a `*v1.PipelineActivity`. -/
def Event.malformed (e : Event) : Bool :=
  match e.payload with
  | .other _ => true
  | .pipeline _ => false

/-! ## The history of a cache, as the specification reads it -/

/-- A well-typed event: every payload the handler reads is a non-nil pipeline
activity. -/
inductive TypedEvent where
  | Added (x : PipelineActivity)
  | Updated (oldObj : Obj) (x : PipelineActivity)
  | Deleted (x : PipelineActivity)
deriving DecidableEq, Repr

/-- The informer notification carrying a well-typed event. -/
def TypedEvent.toEvent (e : TypedEvent) : Event :=
  match e with
  | .Added x => .Added (.pipeline (some x))
  | .Updated oldObj x => .Updated oldObj (.pipeline (some x))
  | .Deleted x => .Deleted (.pipeline (some x))

/-- An operation of the history: a put (bootstrap entry, Added, Updated) or a
delete, with the item it carries. -/
inductive Op where
  | put (x : PipelineActivity)
  | del (x : PipelineActivity)
deriving DecidableEq, Repr

/-- The name an operation mentions. -/
def Op.name (o : Op) : String :=
  match o with
  | .put x => x.Name
  | .del x => x.Name

/-- The operation a well-typed event stands for. -/
def TypedEvent.op (e : TypedEvent) : Op :=
  match e with
  | .Added x => .put x
  | .Updated _ x => .put x
  | .Deleted x => .del x

/-- The history: bootstrap entries first, then the events in delivery order. -/
def history (boot : List PipelineActivity) (events : List TypedEvent) : List Op :=
  boot.map Op.put ++ events.map TypedEvent.op

/-- What an operation of the history does to the store. -/
def applyOp (m : SyncMap) (o : Op) : SyncMap :=
  match o with
  | .put x => m.Store x.Name (.pipeline (some x))
  | .del x => m.Delete x.Name

/-- The last operation of a history that mentions the name `K`. -/
def lastMention (K : String) (log : List Op) : Option Op :=
  log.reverse.find? (fun o => decide (o.name = K))

/-- The item a stored value holds, if it is a non-nil pipeline activity. -/
def Obj.activity? (value : Obj) : Option PipelineActivity :=
  match value with
  | .pipeline p => p
  | .other _ => none

/-- The entry under which an activity is stored. -/
def entryOf (p : PipelineActivity) : String × Obj :=
  (p.Name, .pipeline (some p))

/-- Every entry holds a non-nil pipeline activity under that activity's name, and
no key occurs twice. -/
def WellKeyed (m : SyncMap) : Prop :=
  (∀ e ∈ m, ∃ p : PipelineActivity, e = entryOf p) ∧ m.keys.Nodup

/-- The activities held by the entries of a store, in the order of its list. -/
def SyncMap.items (m : SyncMap) : List PipelineActivity :=
  m.filterMap (fun e => e.2.activity?)

/-- What `Pipelines` collects for one key: the activity stored under it, if any. -/
def collected (m : SyncMap) (key : String) : Option PipelineActivity :=
  (m.Load key).bind Obj.activity?

/-- Ascending name order: every item is at most every later item. -/
def SortedByName (l : List PipelineActivity) : Prop :=
  l.Pairwise (fun a b => a.Name ≤ b.Name)

/-! ## Lemmas on the store -/

theorem mem_Store_iff (m : SyncMap) (key : String) (value : Obj) (e : String × Obj) :
    e ∈ m.Store key value ↔ e = (key, value) ∨ (e ∈ m ∧ e.1 ≠ key) := by
  simp [SyncMap.Store]

theorem mem_Delete_iff (m : SyncMap) (key : String) (e : String × Obj) :
    e ∈ m.Delete key ↔ e ∈ m ∧ e.1 ≠ key := by
  simp [SyncMap.Delete]

theorem keys_Delete_nodup (m : SyncMap) (key : String) (h : m.keys.Nodup) :
    (m.Delete key).keys.Nodup := by
  unfold SyncMap.Delete SyncMap.keys
  exact (List.filter_sublist m).map Prod.fst |>.nodup h

theorem keys_Store_nodup (m : SyncMap) (key : String) (value : Obj)
    (h : m.keys.Nodup) : (m.Store key value).keys.Nodup := by
  unfold SyncMap.Store SyncMap.keys
  rw [List.map_cons, List.nodup_cons]
  refine ⟨?_, keys_Delete_nodup m key h⟩
  simp

theorem WellKeyed_nil : WellKeyed [] := by
  simp [WellKeyed, SyncMap.keys]

theorem WellKeyed_Store (m : SyncMap) (p : PipelineActivity) (h : WellKeyed m) :
    WellKeyed (m.Store p.Name (.pipeline (some p))) := by
  refine ⟨?_, keys_Store_nodup m _ _ h.2⟩
  intro e he
  rw [mem_Store_iff] at he
  rcases he with rfl | ⟨he, _⟩
  · exact ⟨p, rfl⟩
  · exact h.1 e he

theorem WellKeyed_Delete (m : SyncMap) (key : String) (h : WellKeyed m) :
    WellKeyed (m.Delete key) := by
  refine ⟨?_, keys_Delete_nodup m key h.2⟩
  intro e he
  rw [mem_Delete_iff] at he
  exact h.1 e he.1

theorem Load_cons (m : SyncMap) (k key : String) (v : Obj) :
    SyncMap.Load ((k, v) :: m) key = if k = key then some v else m.Load key := by
  unfold SyncMap.Load
  by_cases h : k = key <;> simp [List.find?_cons, h]

theorem Load_eq_none_iff (m : SyncMap) (key : String) :
    m.Load key = none ↔ key ∉ m.keys := by
  induction m with
  | nil => simp [SyncMap.Load, SyncMap.keys]
  | cons e t ih =>
    rcases e with ⟨k, v⟩
    rw [Load_cons]
    by_cases h : k = key
    · simp [h, SyncMap.keys]
    · have ih2 : SyncMap.Load t key = none ↔ key ∉ List.map Prod.fst t := ih
      simp [h, SyncMap.keys, ih2, Ne.symm h]

theorem Load_of_mem (m : SyncMap) (h : m.keys.Nodup) (e : String × Obj) (he : e ∈ m) :
    m.Load e.1 = some e.2 := by
  induction m with
  | nil => simp at he
  | cons a t ih =>
    rcases a with ⟨k, v⟩
    have hn : k ∉ SyncMap.keys t ∧ (SyncMap.keys t).Nodup := by
      simpa [SyncMap.keys] using h
    rw [Load_cons]
    rcases List.mem_cons.mp he with rfl | het
    · simp
    · have hne : k ≠ e.1 := by
        intro hk
        apply hn.1
        rw [hk]
        exact List.mem_map_of_mem Prod.fst het
      simp [hne, ih hn.2 het]

/-! ## Lemmas on `Pipelines` -/

theorem onEntry_eq (answer : List PipelineActivity) (key : String) (value : Obj) :
    PipelineNamespaceCache.onEntry answer key value
      = (answer ++ value.activity?.toList, true) := by
  rcases value with (_ | p) | d <;> simp [PipelineNamespaceCache.onEntry, Obj.activity?]

theorem Range_onEntry (m : SyncMap) (order : List String) (answer : List PipelineActivity) :
    m.Range order PipelineNamespaceCache.onEntry answer
      = answer ++ order.filterMap (collected m) := by
  induction order generalizing answer with
  | nil => simp [SyncMap.Range]
  | cons key rest ih =>
    unfold SyncMap.Range
    rcases hl : m.Load key with _ | value
    · simp [ih, collected, hl]
    · simp only [onEntry_eq, ih]
      rcases ha : value.activity? with _ | p <;> simp [collected, hl, ha]

theorem Pipelines_eq (c : PipelineNamespaceCache) (order : List String) :
    c.Pipelines order = order.filterMap (collected c.pipelines) := by
  simp [PipelineNamespaceCache.Pipelines, Range_onEntry]

theorem keys_filterMap_collected (m : SyncMap) (h : m.keys.Nodup) :
    m.keys.filterMap (collected m) = m.items := by
  have key : ∀ l : SyncMap, (∀ e ∈ l, e ∈ m) →
      (SyncMap.keys l).filterMap (collected m) = SyncMap.items l := by
    intro l
    induction l with
    | nil => intro _; rfl
    | cons e t ih =>
      intro hsub
      have he : m.Load e.1 = some e.2 := Load_of_mem m h e (hsub e (List.mem_cons_self _ _))
      have ht := ih (fun x hx => hsub x (List.mem_cons_of_mem _ hx))
      simp only [SyncMap.keys, SyncMap.items, List.map_cons, List.filterMap_cons] at ht ⊢
      simp only [collected, he, Option.some_bind]
      rw [ht]
  exact key m (fun _ h => h)

theorem Pipelines_perm_items (c : PipelineNamespaceCache) (order : List String)
    (hk : c.pipelines.keys.Nodup) (ho : c.pipelines.RangeOrder order) :
    (c.Pipelines order).Perm c.pipelines.items := by
  rw [Pipelines_eq, ← keys_filterMap_collected c.pipelines hk]
  exact List.Perm.filterMap _ ho

theorem items_map_entryOf (m : SyncMap) (h : ∀ e ∈ m, ∃ p : PipelineActivity, e = entryOf p) :
    m.items.map entryOf = m := by
  induction m with
  | nil => rfl
  | cons e t ih =>
    obtain ⟨p, rfl⟩ := h e (List.mem_cons_self _ _)
    have ht := ih (fun x hx => h x (List.mem_cons_of_mem _ hx))
    have hcons : SyncMap.items (entryOf p :: t) = p :: SyncMap.items t := rfl
    rw [hcons, List.map_cons, ht]

theorem mem_items_iff (m : SyncMap) (h : ∀ e ∈ m, ∃ p : PipelineActivity, e = entryOf p)
    (p : PipelineActivity) : p ∈ m.items ↔ entryOf p ∈ m := by
  constructor
  · intro hp
    rw [← items_map_entryOf m h]
    exact List.mem_map_of_mem entryOf hp
  · intro hp
    simp only [SyncMap.items, List.mem_filterMap]
    exact ⟨entryOf p, hp, rfl⟩

theorem entryOf_injective : Function.Injective entryOf := by
  intro a b h
  simp only [entryOf, Prod.mk.injEq, Obj.pipeline.injEq, Option.some.injEq] at h
  exact h.2

/-! ## Reachable stores are well keyed -/

theorem WellKeyed_onPipelineObj (c : PipelineNamespaceCache) (obj : Obj)
    (h : WellKeyed c.pipelines) : WellKeyed (c.onPipelineObj obj).pipelines := by
  rcases obj with (_ | p) | d
  · exact h
  · exact WellKeyed_Store c.pipelines p h
  · exact h

theorem WellKeyed_onPipelineDelete (c : PipelineNamespaceCache) (obj : Obj)
    (h : WellKeyed c.pipelines) : WellKeyed (c.onPipelineDelete obj).pipelines := by
  rcases obj with (_ | p) | d
  · exact h
  · exact WellKeyed_Delete c.pipelines p.Name h
  · exact h

theorem WellKeyed_handle (c : PipelineNamespaceCache) (e : Event)
    (h : WellKeyed c.pipelines) : WellKeyed (handle c e).pipelines := by
  cases e with
  | Added obj => exact WellKeyed_onPipelineObj c obj h
  | Updated oldObj newObj => exact WellKeyed_onPipelineObj c newObj h
  | Deleted obj => exact WellKeyed_onPipelineDelete c obj h

theorem WellKeyed_deliver (events : List Event) (c : PipelineNamespaceCache)
    (h : WellKeyed c.pipelines) : WellKeyed (deliver c events).pipelines := by
  induction events generalizing c with
  | nil => exact h
  | cons e rest ih => exact ih (handle c e) (WellKeyed_handle c e h)

theorem WellKeyed_seed (items : List PipelineActivity) (c : PipelineNamespaceCache)
    (h : WellKeyed c.pipelines) : WellKeyed (seed c items).pipelines := by
  induction items generalizing c with
  | nil => exact h
  | cons p rest ih =>
    exact ih _ (WellKeyed_Store c.pipelines p h)

theorem WellKeyed_NewPipelineCache (listed : ListResult) :
    WellKeyed (NewPipelineCache listed).pipelines := by
  unfold NewPipelineCache
  rcases listed.pipelines with _ | items
  · exact WellKeyed_nil
  · exact WellKeyed_seed items _ WellKeyed_nil

theorem WellKeyed_reachable (listed : ListResult) (events : List Event) :
    WellKeyed (deliver (NewPipelineCache listed) events).pipelines :=
  WellKeyed_deliver events _ (WellKeyed_NewPipelineCache listed)

theorem collected_of_mem_keys (m : SyncMap) (h : WellKeyed m) (key : String)
    (hk : key ∈ m.keys) : ∃ p : PipelineActivity, collected m key = some p ∧ p.Name = key := by
  obtain ⟨e, he, rfl⟩ := List.mem_map.mp hk
  obtain ⟨p, rfl⟩ := h.1 e he
  refine ⟨p, ?_, rfl⟩
  have hl := Load_of_mem m h.2 (entryOf p) he
  simp only [entryOf] at hl
  simp [collected, entryOf, hl, Obj.activity?]

theorem names_filterMap_collected (m : SyncMap) (order : List String)
    (h : ∀ key ∈ order, ∃ p : PipelineActivity, collected m key = some p ∧ p.Name = key) :
    (order.filterMap (collected m)).map (fun p => p.Name) = order := by
  induction order with
  | nil => rfl
  | cons key rest ih =>
    obtain ⟨p, hp, hn⟩ := h key (List.mem_cons_self _ _)
    have hr := ih (fun k hk => h k (List.mem_cons_of_mem _ hk))
    rw [List.filterMap_cons_some hp, List.map_cons, hr, hn]

theorem deliver_stop (events : List Event) (c : PipelineNamespaceCache) :
    (deliver c events).stop = c.stop := by
  induction events generalizing c with
  | nil => rfl
  | cons e rest ih =>
    have hs : (handle c e).stop = c.stop := by
      rcases e with ((_ | p) | d) | ⟨o, ((_ | p) | d)⟩ | ((_ | p) | d) <;> rfl
    exact (ih (handle c e)).trans hs

theorem deliver_pipelines_congr (events : List Event) (c d : PipelineNamespaceCache)
    (h : c.pipelines = d.pipelines) : (deliver c events).pipelines = (deliver d events).pipelines := by
  induction events generalizing c d with
  | nil => exact h
  | cons e rest ih =>
    apply ih
    rcases e with ((_ | p) | x) | ⟨o, ((_ | p) | x)⟩ | ((_ | p) | x) <;>
      simp [handle, PipelineNamespaceCache.onPipelineObj,
        PipelineNamespaceCache.onPipelineDelete, h]

theorem run_notify (events : List Event) (c : PipelineNamespaceCache) :
    run c (events.map Step.Notify) = .ok (deliver c events) := by
  induction events generalizing c with
  | nil => rfl
  | cons e rest ih =>
    simp only [List.map_cons, run, step]
    exact ih (handle c e)

/-! ## The store as a function of the history -/

theorem Delete_of_not_mem_keys (m : SyncMap) (key : String) (h : key ∉ m.keys) :
    m.Delete key = m := by
  unfold SyncMap.Delete
  rw [List.filter_eq_self]
  intro e he
  have : e.1 ≠ key := by
    intro hk
    exact h (hk ▸ List.mem_map_of_mem Prod.fst he)
  simpa using this

theorem Store_of_not_mem_keys (m : SyncMap) (key : String) (value : Obj) (h : key ∉ m.keys) :
    m.Store key value = (key, value) :: m := by
  have hd := Delete_of_not_mem_keys m key h
  unfold SyncMap.Delete at hd
  unfold SyncMap.Store
  rw [hd]

theorem Load_Delete (m : SyncMap) (key k : String) :
    (m.Delete key).Load k = if k = key then none else m.Load k := by
  by_cases h : k = key
  · subst h
    rw [if_pos rfl, Load_eq_none_iff]
    intro hk
    obtain ⟨e, he, hek⟩ := List.mem_map.mp hk
    exact ((mem_Delete_iff m k e).mp he).2 hek
  · rw [if_neg h]
    induction m with
    | nil => rfl
    | cons e t ih =>
      rcases e with ⟨a, v⟩
      have ht : SyncMap.Load (SyncMap.Delete t key) k = SyncMap.Load t k := ih
      by_cases ha : a = key
      · have hak : a ≠ k := fun hak => h (hak ▸ ha)
        have hdel : SyncMap.Delete ((a, v) :: t) key = SyncMap.Delete t key := by
          simp [SyncMap.Delete, ha]
        rw [hdel, ht, Load_cons, if_neg hak]
      · have hdel : SyncMap.Delete ((a, v) :: t) key = (a, v) :: SyncMap.Delete t key := by
          simp [SyncMap.Delete, ha]
        rw [hdel, Load_cons, Load_cons, ht]

theorem seed_pipelines (items : List PipelineActivity) (c : PipelineNamespaceCache) :
    (seed c items).pipelines = (items.map Op.put).foldl applyOp c.pipelines := by
  induction items generalizing c with
  | nil => rfl
  | cons x rest ih => exact ih _

theorem deliver_typed_pipelines (events : List TypedEvent) (c : PipelineNamespaceCache) :
    (deliver c (events.map TypedEvent.toEvent)).pipelines
      = (events.map TypedEvent.op).foldl applyOp c.pipelines := by
  induction events generalizing c with
  | nil => rfl
  | cons e rest ih =>
    cases e <;> exact ih _

theorem pipelines_eq_history (boot : List PipelineActivity) (err : Option String)
    (events : List TypedEvent) :
    (deliver (NewPipelineCache ⟨some boot, err⟩) (events.map TypedEvent.toEvent)).pipelines
      = (history boot events).foldl applyOp [] := by
  rw [deliver_typed_pipelines, history, List.foldl_append]
  show List.foldl applyOp (seed _ boot).pipelines _ = _
  rw [seed_pipelines]

theorem lastMention_snoc (K : String) (log : List Op) (o : Op) :
    lastMention K (log ++ [o]) = if o.name = K then some o else lastMention K log := by
  unfold lastMention
  rw [List.reverse_append, List.reverse_singleton, List.singleton_append, List.find?_cons]
  by_cases h : o.name = K <;> simp [h]

theorem lastMention_name (K : String) (log : List Op) (o : Op)
    (h : lastMention K log = some o) : o.name = K := by
  have := List.find?_some h
  simpa using this

theorem mem_history_store_iff (log : List Op) (p : PipelineActivity) :
    entryOf p ∈ log.foldl applyOp [] ↔ lastMention p.Name log = some (.put p) := by
  induction log using List.reverseRecOn with
  | nil => simp [lastMention]
  | append_singleton l o ih =>
    rw [List.foldl_append, lastMention_snoc]
    show entryOf p ∈ applyOp (List.foldl applyOp [] l) o ↔ _
    cases o with
    | put x =>
      simp only [applyOp, Op.name, mem_Store_iff]
      by_cases hx : x.Name = p.Name
      · rw [if_pos hx]
        constructor
        · rintro (h | ⟨_, h⟩)
          · have := @entryOf_injective p x h
            rw [this]
          · exact absurd hx.symm h
        · intro h
          left
          simp only [Option.some.injEq, Op.put.injEq] at h
          rw [h]; rfl
      · rw [if_neg hx, ← ih]
        constructor
        · rintro (h | ⟨h, _⟩)
          · exact absurd (congrArg Prod.fst h).symm hx
          · exact h
        · intro h
          exact Or.inr ⟨h, fun hk => hx hk.symm⟩
    | del x =>
      simp only [applyOp, Op.name, mem_Delete_iff]
      by_cases hx : x.Name = p.Name
      · rw [if_pos hx]
        constructor
        · rintro ⟨_, h⟩
          exact absurd hx.symm h
        · intro h
          simp at h
      · rw [if_neg hx, ← ih]
        exact ⟨fun h => h.1, fun h => ⟨h, fun hk => hx hk.symm⟩⟩

theorem mem_Pipelines_iff (c : PipelineNamespaceCache) (order : List String)
    (hw : WellKeyed c.pipelines) (ho : c.pipelines.RangeOrder order) (p : PipelineActivity) :
    p ∈ c.Pipelines order ↔ entryOf p ∈ c.pipelines := by
  rw [(Pipelines_perm_items c order hw.2 ho).mem_iff, mem_items_iff c.pipelines hw.1]

theorem seed_distinct (items : List PipelineActivity) (c : PipelineNamespaceCache)
    (hd : (items.map (fun x => x.Name)).Nodup)
    (hc : ∀ x ∈ items, x.Name ∉ c.pipelines.keys) :
    (seed c items).pipelines = (items.map entryOf).reverse ++ c.pipelines := by
  induction items generalizing c with
  | nil => rfl
  | cons x rest ih =>
    rw [List.map_cons, List.nodup_cons] at hd
    have hx : c.pipelines.Store x.Name (.pipeline (some x)) = entryOf x :: c.pipelines :=
      Store_of_not_mem_keys _ _ _ (hc x (List.mem_cons_self _ _))
    show (seed { c with pipelines := c.pipelines.Store x.Name (.pipeline (some x)) } rest).pipelines
      = _
    rw [ih _ hd.2]
    · simp only [hx, List.map_cons, List.reverse_cons, List.append_assoc, List.singleton_append]
    · intro y hy
      simp only [hx, SyncMap.keys, List.map_cons, List.mem_cons, not_or]
      refine ⟨?_, hc y (List.mem_cons_of_mem _ hy)⟩
      intro hyx
      apply hd.1
      have hn : y.Name = x.Name := hyx
      rw [← hn]
      exact List.mem_map_of_mem (fun x => x.Name) hy

theorem items_map_entryOf_left (l : List PipelineActivity) :
    SyncMap.items (l.map entryOf) = l := by
  induction l with
  | nil => rfl
  | cons x rest ih =>
    show x :: SyncMap.items (rest.map entryOf) = _
    rw [ih]

/-! ## The claims -/

/-- C10: in every state reached by the seeding loop followed by any events
(well-typed, malformed or nil payloads), every entry holds a non-nil pipeline
activity whose name is its key and no key occurs twice; so `Pipelines` drops no
entry: it returns one item per stored key, the item named by the key, in the
order `Range` goes through the keys, and no two items share a name. -/
theorem key_equals_name_invariant (listed : ListResult) (events : List Event)
    (order : List String)
    (ho : (deliver (NewPipelineCache listed) events).pipelines.RangeOrder order) :
    (∀ e ∈ (deliver (NewPipelineCache listed) events).pipelines,
        ∃ p : PipelineActivity, e.2 = Obj.pipeline (some p) ∧ p.Name = e.1) ∧
      (deliver (NewPipelineCache listed) events).pipelines.keys.Nodup ∧
      (((deliver (NewPipelineCache listed) events).Pipelines order).map entryOf).Perm
        (deliver (NewPipelineCache listed) events).pipelines ∧
      ((deliver (NewPipelineCache listed) events).Pipelines order).length
        = (deliver (NewPipelineCache listed) events).pipelines.length ∧
      ((deliver (NewPipelineCache listed) events).Pipelines order).map (fun p => p.Name)
        = order ∧
      (((deliver (NewPipelineCache listed) events).Pipelines order).map
        (fun p => p.Name)).Nodup := by
  have hw := WellKeyed_reachable listed events
  generalize deliver (NewPipelineCache listed) events = c at hw ho ⊢
  have hperm := Pipelines_perm_items c order hw.2 ho
  have hent : ((c.Pipelines order).map entryOf).Perm c.pipelines := by
    have := hperm.map entryOf
    rwa [items_map_entryOf c.pipelines hw.1] at this
  have hnames : (c.Pipelines order).map (fun p => p.Name) = order := by
    rw [Pipelines_eq]
    apply names_filterMap_collected
    intro key hk
    exact collected_of_mem_keys c.pipelines hw key (ho.subset hk)
  refine ⟨?_, hw.2, hent, ?_, hnames, ?_⟩
  · intro e he
    obtain ⟨p, rfl⟩ := hw.1 e he
    exact ⟨p, rfl, rfl⟩
  · simpa using hent.length_eq
  · rw [hnames]
    exact ho.nodup_iff.mpr hw.2

/-- C10 on a cache seeded with one activity that then receives a nil payload, a
malformed payload and an Added activity. -/
theorem key_equals_name_invariant_witness :
    (deliver (NewPipelineCache ⟨some [⟨"a", "running"⟩], none⟩)
        [Event.Added (.pipeline none), Event.Added (.other "pod"),
          Event.Added (.pipeline (some ⟨"b", "pending"⟩))]).pipelines.RangeOrder ["a", "b"] ∧
      ((deliver (NewPipelineCache ⟨some [⟨"a", "running"⟩], none⟩)
        [Event.Added (.pipeline none), Event.Added (.other "pod"),
          Event.Added (.pipeline (some ⟨"b", "pending"⟩))]).Pipelines ["a", "b"]).map
            (fun p => p.Name) = ["a", "b"] :=
  ⟨by decide, (key_equals_name_invariant ⟨some [⟨"a", "running"⟩], none⟩
    [Event.Added (.pipeline none), Event.Added (.other "pod"),
      Event.Added (.pipeline (some ⟨"b", "pending"⟩))] ["a", "b"] (by decide)).2.2.2.2.1⟩

/-- C2: `Pipelines` does not sort.  On the cache seeded with the activities `a`
and `b`, when `Range` goes through the key `b` before the key `a`, `Pipelines`
returns `b` before `a`, which is not ascending name order. -/
theorem Pipelines_not_sorted :
    (NewPipelineCache ⟨some [⟨"a", "running"⟩, ⟨"b", "pending"⟩], none⟩).pipelines.RangeOrder
        ["b", "a"] ∧
      (NewPipelineCache ⟨some [⟨"a", "running"⟩, ⟨"b", "pending"⟩], none⟩).Pipelines ["b", "a"]
        = [⟨"b", "pending"⟩, ⟨"a", "running"⟩] ∧
      ¬ SortedByName
        ((NewPipelineCache ⟨some [⟨"a", "running"⟩, ⟨"b", "pending"⟩], none⟩).Pipelines
          ["b", "a"]) := by
  have h : (NewPipelineCache ⟨some [⟨"a", "running"⟩, ⟨"b", "pending"⟩], none⟩).Pipelines
      ["b", "a"] = [⟨"b", "pending"⟩, ⟨"a", "running"⟩] := by decide
  refine ⟨by decide, h, ?_⟩
  rw [h]
  simp only [SortedByName, List.pairwise_cons, List.mem_singleton, forall_eq, List.not_mem_nil,
    false_implies, implies_true, List.Pairwise.nil, and_true]
  rw [not_le, String.lt_iff_toList_lt]
  decide

/-- C3 as stated fails: a second `Stop()` on a new cache panics, closing the
channel the first `Stop()` closed. -/
theorem Stop_twice_panics :
    (NewPipelineCache ⟨some [], none⟩).Stop = .ok ⟨[], .Closed⟩ ∧
      PipelineNamespaceCache.Stop ⟨[], .Closed⟩ = .error .closeOfClosedChannel ∧
      run (NewPipelineCache ⟨some [], none⟩) [Step.Stop, Step.Stop]
        = .error .closeOfClosedChannel :=
  ⟨rfl, rfl, rfl⟩

/-- C3, amended: on a cache whose stop channel is open, `Stop()` returns normally,
leaves the channel closed and the store as it was; every `Stop()` after that
panics with a close of a closed channel. -/
theorem Stop_once_then_panics (c : PipelineNamespaceCache) (h : c.stop = .Open) :
    c.Stop = .ok { pipelines := c.pipelines, stop := .Closed } ∧
      PipelineNamespaceCache.Stop { pipelines := c.pipelines, stop := .Closed }
        = .error .closeOfClosedChannel ∧
      run c [Step.Stop, Step.Stop] = .error .closeOfClosedChannel := by
  rcases c with ⟨m, ch⟩
  simp only at h
  subst h
  exact ⟨rfl, rfl, rfl⟩

/-- C3, amended, on a cache seeded with one activity. -/
theorem Stop_once_then_panics_witness :
    (NewPipelineCache ⟨some [⟨"a", "running"⟩], none⟩).stop = .Open ∧
      (NewPipelineCache ⟨some [⟨"a", "running"⟩], none⟩).Stop
        = .ok { pipelines := [("a", .pipeline (some ⟨"a", "running"⟩))], stop := .Closed } :=
  ⟨rfl, (Stop_once_then_panics (NewPipelineCache ⟨some [⟨"a", "running"⟩], none⟩) rfl).1⟩

/-- C5: handling the same non-nil activity `X` twice in a row with
`onPipelineObj` gives the same cache as handling it once (also as a duplicated
Added event), and the store then has exactly one entry under the name of `X`,
holding `X`. -/
theorem onPipelineObj_idempotent (c : PipelineNamespaceCache) (X : PipelineActivity) :
    (c.onPipelineObj (.pipeline (some X))).onPipelineObj (.pipeline (some X))
        = c.onPipelineObj (.pipeline (some X)) ∧
      deliver c [Event.Added (.pipeline (some X)), Event.Added (.pipeline (some X))]
        = deliver c [Event.Added (.pipeline (some X))] ∧
      (c.onPipelineObj (.pipeline (some X))).pipelines.filter (fun e => decide (e.1 = X.Name))
        = [(X.Name, .pipeline (some X))] ∧
      (c.onPipelineObj (.pipeline (some X))).pipelines.Load X.Name
        = some (.pipeline (some X)) := by
  have h1 : (c.onPipelineObj (.pipeline (some X))).onPipelineObj (.pipeline (some X))
      = c.onPipelineObj (.pipeline (some X)) := by
    simp [PipelineNamespaceCache.onPipelineObj, SyncMap.Store, List.filter_filter]
  refine ⟨h1, ?_, ?_, ?_⟩
  · simpa [deliver, handle] using h1
  · simp [PipelineNamespaceCache.onPipelineObj, SyncMap.Store, List.filter_filter,
      List.filter_cons]
  · simp [PipelineNamespaceCache.onPipelineObj, SyncMap.Store, Load_cons]

/-- C6: a payload that is not a pipeline activity leaves the cache unchanged in
`onPipelineObj` and in `onPipelineDelete`, the step of such an Added, Updated or
Deleted event returns normally, and delivering any event sequence gives the cache
that the sequence without its malformed events gives. -/
theorem malformed_events_discarded (c : PipelineNamespaceCache) (descr : String)
    (oldObj : Obj) (events : List Event) :
    c.onPipelineObj (.other descr) = c ∧
      c.onPipelineDelete (.other descr) = c ∧
      step c (.Notify (.Added (.other descr))) = .ok c ∧
      step c (.Notify (.Updated oldObj (.other descr))) = .ok c ∧
      step c (.Notify (.Deleted (.other descr))) = .ok c ∧
      deliver c events = deliver c (events.filter (fun e => !e.malformed)) ∧
      run c (events.map Step.Notify)
        = run c ((events.filter (fun e => !e.malformed)).map Step.Notify) := by
  have hd : ∀ (l : List Event) (d : PipelineNamespaceCache),
      deliver d l = deliver d (l.filter (fun e => !e.malformed)) := by
    intro l
    induction l with
    | nil => intro d; rfl
    | cons e rest ih =>
      intro d
      rcases hm : e.malformed with _ | _
      · rw [List.filter_cons_of_pos (by simp [hm])]
        exact ih (handle d e)
      · rw [List.filter_cons_of_neg (by simp [hm])]
        have he : handle d e = d := by
          rcases e with ((_ | p) | x) | ⟨o, ((_ | p) | x)⟩ | ((_ | p) | x) <;>
            first
              | rfl
              | (simp [Event.malformed, Event.payload] at hm)
        show deliver (handle d e) rest = _
        rw [he]
        exact ih d
  refine ⟨rfl, rfl, rfl, rfl, rfl, hd events c, ?_⟩
  rw [run_notify, run_notify, ← hd events c]

/-- C8: when the listing fails (an error and a nil list), `NewPipelineCache` still
returns a cache; its store is empty, `Pipelines` returns the empty list, and any
event sequence leads it to the cache that a cache seeded from an empty listing
reaches. -/
theorem bootstrap_failure_nonfatal (err : String) (order : List String)
    (events : List Event) :
    NewPipelineCache ⟨none, some err⟩ = { pipelines := [], stop := .Open } ∧
      (NewPipelineCache ⟨none, some err⟩).Pipelines order = [] ∧
      deliver (NewPipelineCache ⟨none, some err⟩) events
        = deliver (NewPipelineCache ⟨some [], none⟩) events := by
  refine ⟨rfl, ?_, rfl⟩
  rw [Pipelines_eq]
  induction order with
  | nil => rfl
  | cons key rest ih =>
    rw [List.filterMap_cons_none]
    · exact ih
    · rfl

/-- C9 as stated fails: after `Stop()` on a new cache `Pipelines` is empty, and an
Added event handled after that `Stop()` puts its activity into the store, so
`Pipelines` then returns it. -/
theorem event_after_Stop_mutates :
    run (NewPipelineCache ⟨some [], none⟩) [Step.Stop] = .ok ⟨[], .Closed⟩ ∧
      PipelineNamespaceCache.Pipelines ⟨[], .Closed⟩ [] = [] ∧
      run (NewPipelineCache ⟨some [], none⟩)
          [Step.Stop, Step.Notify (.Added (.pipeline (some ⟨"build-1", "running"⟩)))]
        = .ok ⟨[("build-1", .pipeline (some ⟨"build-1", "running"⟩))], .Closed⟩ ∧
      SyncMap.RangeOrder [("build-1", .pipeline (some ⟨"build-1", "running"⟩))] ["build-1"] ∧
      PipelineNamespaceCache.Pipelines
          ⟨[("build-1", .pipeline (some ⟨"build-1", "running"⟩))], .Closed⟩ ["build-1"]
        = [⟨"build-1", "running"⟩] :=
  ⟨rfl, rfl, rfl, by decide, by decide⟩

/-- C9, amended: `Stop()` on a cache with an open stop channel closes the channel
and leaves the store, hence `Pipelines`, as it was; the handlers do not look at
the stop channel, so events handled after `Stop()` change the store exactly as
the same events change it without `Stop()`. -/
theorem Stop_keeps_store_handlers_unguarded (c : PipelineNamespaceCache)
    (events : List Event) (order : List String) (h : c.stop = .Open) :
    run c [Step.Stop] = .ok { pipelines := c.pipelines, stop := .Closed } ∧
      PipelineNamespaceCache.Pipelines { pipelines := c.pipelines, stop := .Closed } order
        = c.Pipelines order ∧
      run c (Step.Stop :: events.map Step.Notify)
        = .ok { pipelines := (deliver c events).pipelines, stop := .Closed } := by
  rcases c with ⟨m, ch⟩
  simp only at h
  subst h
  refine ⟨rfl, rfl, ?_⟩
  show run ⟨m, .Closed⟩ (events.map Step.Notify) = _
  rw [run_notify]
  have h1 := deliver_stop events ⟨m, .Closed⟩
  have h2 := deliver_pipelines_congr events ⟨m, .Closed⟩ ⟨m, .Open⟩ rfl
  rcases hd : deliver ⟨m, .Closed⟩ events with ⟨m', ch'⟩
  rw [hd] at h1 h2
  simp only at h1 h2
  rw [h1, h2]

/-- C9, amended, on a cache seeded with one activity that is deleted after
`Stop()`. -/
theorem Stop_keeps_store_handlers_unguarded_witness :
    (NewPipelineCache ⟨some [⟨"a", "running"⟩], none⟩).stop = .Open ∧
      run (NewPipelineCache ⟨some [⟨"a", "running"⟩], none⟩)
          (Step.Stop :: [Event.Deleted (.pipeline (some ⟨"a", "failed"⟩))].map Step.Notify)
        = .ok { pipelines := [], stop := .Closed } :=
  ⟨rfl, (Stop_keeps_store_handlers_unguarded (NewPipelineCache ⟨some [⟨"a", "running"⟩], none⟩)
    [Event.Deleted (.pipeline (some ⟨"a", "failed"⟩))] ["a"] rfl).2.2⟩

/-- C1: after the seeding loop on a bootstrap list followed by well-typed Added,
Updated and Deleted events handled in order, `Pipelines` contains the item `p`
under the name `K` exactly when the last operation of the history that mentions
`K` is a put carrying `p`; so it contains an item named `K` if and only if that
last operation is a put, and then the item is the one that put carried. -/
theorem last_writer_wins (boot : List PipelineActivity) (events : List TypedEvent)
    (K : String) (order : List String) (p : PipelineActivity)
    (ho : (deliver (NewPipelineCache ⟨some boot, none⟩)
      (events.map TypedEvent.toEvent)).pipelines.RangeOrder order) :
    (p ∈ (deliver (NewPipelineCache ⟨some boot, none⟩)
        (events.map TypedEvent.toEvent)).Pipelines order ∧ p.Name = K)
      ↔ lastMention K (history boot events) = some (.put p) := by
  have hw := WellKeyed_reachable ⟨some boot, none⟩ (events.map TypedEvent.toEvent)
  rw [mem_Pipelines_iff _ order hw ho, pipelines_eq_history, mem_history_store_iff]
  constructor
  · rintro ⟨h, rfl⟩
    exact h
  · intro h
    have hk : p.Name = K := lastMention_name K _ _ h
    subst hk
    exact ⟨h, rfl⟩

/-- C1 on the scenario of the specification: bootstrap `build-1` running, Updated
`build-1` success, Added `build-2` pending. -/
theorem last_writer_wins_witness :
    (deliver (NewPipelineCache ⟨some [⟨"build-1", "running"⟩], none⟩)
        ([TypedEvent.Updated (.pipeline (some ⟨"build-1", "running"⟩)) ⟨"build-1", "success"⟩,
          TypedEvent.Added ⟨"build-2", "pending"⟩].map
            TypedEvent.toEvent)).pipelines.RangeOrder ["build-1", "build-2"] ∧
      (deliver (NewPipelineCache ⟨some [⟨"build-1", "running"⟩], none⟩)
        ([TypedEvent.Updated (.pipeline (some ⟨"build-1", "running"⟩)) ⟨"build-1", "success"⟩,
          TypedEvent.Added ⟨"build-2", "pending"⟩].map TypedEvent.toEvent)).Pipelines
            ["build-1", "build-2"] = [⟨"build-1", "success"⟩, ⟨"build-2", "pending"⟩] ∧
      ((⟨"build-1", "success"⟩ ∈
          (deliver (NewPipelineCache ⟨some [⟨"build-1", "running"⟩], none⟩)
            ([TypedEvent.Updated (.pipeline (some ⟨"build-1", "running"⟩))
                ⟨"build-1", "success"⟩,
              TypedEvent.Added ⟨"build-2", "pending"⟩].map TypedEvent.toEvent)).Pipelines
                ["build-1", "build-2"] ∧
          (⟨"build-1", "success"⟩ : PipelineActivity).Name = "build-1")
        ↔ lastMention "build-1"
            (history [⟨"build-1", "running"⟩]
              [TypedEvent.Updated (.pipeline (some ⟨"build-1", "running"⟩))
                  ⟨"build-1", "success"⟩,
                TypedEvent.Added ⟨"build-2", "pending"⟩])
          = some (.put ⟨"build-1", "success"⟩)) :=
  ⟨by decide, by decide,
    last_writer_wins [⟨"build-1", "running"⟩]
      [TypedEvent.Updated (.pipeline (some ⟨"build-1", "running"⟩)) ⟨"build-1", "success"⟩,
        TypedEvent.Added ⟨"build-2", "pending"⟩]
      "build-1" ["build-1", "build-2"] ⟨"build-1", "success"⟩ (by decide)⟩

/-- C4: in every state of the cache (the seeding loop followed by any events),
after `onPipelineDelete` of a non-nil activity `X` nothing named like `X` is in
`Pipelines` and no entry is stored under that name, whatever was stored under it
before; the entries under every other name are as before, and nothing changes
when the name had no entry.  So after Added, Updated and Deleted events for one
name, handled in that order, `Pipelines` has no item of that name. -/
theorem delete_by_identity (listed : ListResult) (events : List Event) (X : PipelineActivity)
    (s1 s2 : String) (oldObj : Obj) (order order2 : List String)
    (ho : ((deliver (NewPipelineCache listed) events).onPipelineDelete
      (.pipeline (some X))).pipelines.RangeOrder order)
    (ho2 : (deliver (deliver (NewPipelineCache listed) events)
      [Event.Added (.pipeline (some ⟨X.Name, s1⟩)),
        Event.Updated oldObj (.pipeline (some ⟨X.Name, s2⟩)),
        Event.Deleted (.pipeline (some X))]).pipelines.RangeOrder order2) :
    (∀ p ∈ ((deliver (NewPipelineCache listed) events).onPipelineDelete
        (.pipeline (some X))).Pipelines order, p.Name ≠ X.Name) ∧
      ((deliver (NewPipelineCache listed) events).onPipelineDelete
        (.pipeline (some X))).pipelines.Load X.Name = none ∧
      (∀ k, k ≠ X.Name →
        ((deliver (NewPipelineCache listed) events).onPipelineDelete
          (.pipeline (some X))).pipelines.Load k
          = (deliver (NewPipelineCache listed) events).pipelines.Load k) ∧
      (∀ e : String × Obj, e.1 ≠ X.Name →
        (e ∈ ((deliver (NewPipelineCache listed) events).onPipelineDelete
          (.pipeline (some X))).pipelines
          ↔ e ∈ (deliver (NewPipelineCache listed) events).pipelines)) ∧
      ((deliver (NewPipelineCache listed) events).pipelines.Load X.Name = none →
        (deliver (NewPipelineCache listed) events).onPipelineDelete (.pipeline (some X))
          = deliver (NewPipelineCache listed) events) ∧
      (∀ p ∈ (deliver (deliver (NewPipelineCache listed) events)
          [Event.Added (.pipeline (some ⟨X.Name, s1⟩)),
            Event.Updated oldObj (.pipeline (some ⟨X.Name, s2⟩)),
            Event.Deleted (.pipeline (some X))]).Pipelines order2, p.Name ≠ X.Name) := by
  have key : ∀ (c : PipelineNamespaceCache) (ord : List String), WellKeyed c.pipelines →
      (c.onPipelineDelete (.pipeline (some X))).pipelines.RangeOrder ord →
      ∀ p ∈ (c.onPipelineDelete (.pipeline (some X))).Pipelines ord, p.Name ≠ X.Name := by
    intro c ord hw hord p hp
    have hwd := WellKeyed_onPipelineDelete c (.pipeline (some X)) hw
    rw [mem_Pipelines_iff _ ord hwd hord] at hp
    exact ((mem_Delete_iff c.pipelines X.Name (entryOf p)).mp hp).2
  have hw := WellKeyed_reachable listed events
  generalize deliver (NewPipelineCache listed) events = c at hw ho ho2 ⊢
  refine ⟨key c order hw ho, ?_, ?_, ?_, ?_, ?_⟩
  · show (c.pipelines.Delete X.Name).Load X.Name = none
    rw [Load_Delete, if_pos rfl]
  · intro k hk
    show (c.pipelines.Delete X.Name).Load k = _
    rw [Load_Delete, if_neg hk]
  · intro e he
    show e ∈ c.pipelines.Delete X.Name ↔ _
    rw [mem_Delete_iff]
    exact ⟨fun h => h.1, fun h => ⟨h, he⟩⟩
  · intro hn
    show ({ c with pipelines := c.pipelines.Delete X.Name } : PipelineNamespaceCache) = c
    rw [Delete_of_not_mem_keys _ _ ((Load_eq_none_iff _ _).mp hn)]
  · have hw2 : WellKeyed (deliver c [Event.Added (.pipeline (some ⟨X.Name, s1⟩)),
        Event.Updated oldObj (.pipeline (some ⟨X.Name, s2⟩))]).pipelines :=
      WellKeyed_deliver _ c hw
    exact key _ order2 hw2 ho2

/-- C4 on a cache seeded with `a` and `b`, deleting `a` by an activity that differs
from the stored one. -/
theorem delete_by_identity_witness :
    ((deliver (NewPipelineCache ⟨some [⟨"a", "running"⟩, ⟨"b", "pending"⟩], none⟩)
        []).onPipelineDelete (.pipeline (some ⟨"a", "failed"⟩))).pipelines.RangeOrder ["b"] ∧
      (deliver (deliver (NewPipelineCache ⟨some [⟨"a", "running"⟩, ⟨"b", "pending"⟩], none⟩) [])
        [Event.Added (.pipeline (some ⟨"a", "v1"⟩)),
          Event.Updated (.pipeline (some ⟨"a", "v1"⟩)) (.pipeline (some ⟨"a", "v2"⟩)),
          Event.Deleted (.pipeline (some ⟨"a", "failed"⟩))]).pipelines.RangeOrder ["b"] ∧
      ((deliver (NewPipelineCache ⟨some [⟨"a", "running"⟩, ⟨"b", "pending"⟩], none⟩)
        []).onPipelineDelete (.pipeline (some ⟨"a", "failed"⟩))).pipelines.Load "a" = none :=
  ⟨by decide, by decide,
    (delete_by_identity ⟨some [⟨"a", "running"⟩, ⟨"b", "pending"⟩], none⟩ [] ⟨"a", "failed"⟩
      "v1" "v2" (.pipeline (some ⟨"a", "v1"⟩)) ["b"] ["b"] (by decide) (by decide)).2.1⟩

/-- C7: after the seeding loop on a listing whose items have pairwise distinct
names, and no event, `Pipelines` is a rearrangement of the listing: it holds each
listed item once and nothing else, it is as long as the listing, and every listed
item is stored under its name. -/
theorem bootstrap_seeds_listing (items : List PipelineActivity) (order : List String)
    (hd : (items.map (fun x => x.Name)).Nodup)
    (ho : (NewPipelineCache ⟨some items, none⟩).pipelines.RangeOrder order) :
    ((NewPipelineCache ⟨some items, none⟩).Pipelines order).Perm items ∧
      ((NewPipelineCache ⟨some items, none⟩).Pipelines order).length = items.length ∧
      (∀ x ∈ items, ((NewPipelineCache ⟨some items, none⟩).Pipelines order).count x = 1) ∧
      (∀ x ∈ items,
        (NewPipelineCache ⟨some items, none⟩).pipelines.Load x.Name
          = some (.pipeline (some x))) := by
  have hs : (NewPipelineCache ⟨some items, none⟩).pipelines = (items.map entryOf).reverse := by
    show (seed _ items).pipelines = _
    rw [seed_distinct items _ hd (by intro x _; simp [SyncMap.keys])]
    simp
  have hw := WellKeyed_NewPipelineCache ⟨some items, none⟩
  have hperm : ((NewPipelineCache ⟨some items, none⟩).Pipelines order).Perm items := by
    refine (Pipelines_perm_items _ order hw.2 ho).trans ?_
    rw [hs, ← List.map_reverse, items_map_entryOf_left]
    exact List.reverse_perm items
  have hnd : items.Nodup := List.Nodup.of_map _ hd
  refine ⟨hperm, hperm.length_eq, ?_, ?_⟩
  · intro x hx
    rw [hperm.count_eq]
    exact List.count_eq_one_of_mem hnd hx
  · intro x hx
    have hm : entryOf x ∈ (NewPipelineCache ⟨some items, none⟩).pipelines := by
      rw [hs, List.mem_reverse]
      exact List.mem_map_of_mem entryOf hx
    exact Load_of_mem _ hw.2 (entryOf x) hm

/-- C7 on the listing `A`, `B`, `C`. -/
theorem bootstrap_seeds_listing_witness :
    ([(⟨"A", "running"⟩ : PipelineActivity), ⟨"B", "pending"⟩, ⟨"C", "success"⟩].map
        (fun x => x.Name)).Nodup ∧
      (NewPipelineCache ⟨some [⟨"A", "running"⟩, ⟨"B", "pending"⟩, ⟨"C", "success"⟩],
        none⟩).pipelines.RangeOrder ["B", "C", "A"] ∧
      ((NewPipelineCache ⟨some [⟨"A", "running"⟩, ⟨"B", "pending"⟩, ⟨"C", "success"⟩],
        none⟩).Pipelines ["B", "C", "A"]).Perm
          [⟨"A", "running"⟩, ⟨"B", "pending"⟩, ⟨"C", "success"⟩] :=
  ⟨by decide, by decide,
    (bootstrap_seeds_listing [⟨"A", "running"⟩, ⟨"B", "pending"⟩, ⟨"C", "success"⟩]
      ["B", "C", "A"] (by decide) (by decide)).1⟩

end Kube
